import Mathlib

/- Shallow embedding of the 2048 board engine (boardUtils.ts) and the
   move-cycle handler of the game component.

   Cells are modelled as Option Nat (null becomes none); a board is a
   row-major list of rows, as in the TypeScript source.  The deployed board
   dimensions are the constants BOARD_ROWS = BOARD_COLS = 4, used verbatim by
   transposeBoard, addRandomTile, hasWon, isBoardFull and hasAdjacentMerge,
   exactly as in the source.

   Randomness in addRandomTile is abstracted by explicit parameters: pick
   chooses the empty position (the source draws a uniform random index into
   the list of empty positions; pick % length realises an arbitrary in-range
   index) and four chooses the tile value (2 when false, 4 when true,
   mirroring the 50/50 coin in the source).  Direction is carried as a
   String, the runtime representation of the TypeScript string-literal
   union, so that out-of-enumeration direction values are expressible. -/

def BOARD_ROWS : Nat := 4

def BOARD_COLS : Nat := 4

abbrev Cell := Option Nat

abbrev Board := List (List Cell)

structure MoveResult where
  newBoard : Board
  changed : Bool
  deriving DecidableEq, Repr

/-- Reads board[r][c].  The model totalizes out-of-range reads to none,
    whereas the source throws on a missing row and yields undefined on a
    short row; every theorem below therefore only relies on reads inside
    the well-formed 4 x 4 frame, where the two agree exactly. -/
def cellAt (b : Board) (r c : Nat) : Cell :=
  (b.getD r []).getD c none

/-- Functional update of one cell, modelling the copy-then-assign in the
    source (newBoard[row][col] = v on a fresh copy). -/
def setCell (b : Board) (r c : Nat) (v : Cell) : Board :=
  b.set r ((b.getD r []).set c v)

/-- The row-major list of coordinates of all empty cells inside the
    BOARD_ROWS x BOARD_COLS frame, as collected by addRandomTile. -/
def emptyPositions (b : Board) : List (Nat × Nat) :=
  (List.range BOARD_ROWS).flatMap (fun r =>
    (List.range BOARD_COLS).filterMap (fun c =>
      if cellAt b r c = none then some (r, c) else none))

/-- The empty position addRandomTile picks: the source draws a uniform
    random index below the number of empty positions; pick % length realises
    an arbitrary such in-range index. -/
def spawnPos (b : Board) (pick : Nat) : Nat × Nat :=
  (emptyPositions b).getD (pick % (emptyPositions b).length) (0, 0)

/-- addRandomTile from boardUtils.ts: returns none when there is no empty
    cell, otherwise places a 2 or 4 at one empty position.  The random draws
    are the explicit parameters pick (position) and four (value). -/
def addRandomTile (b : Board) (pick : Nat) (four : Bool) : Option Board :=
  if (emptyPositions b).length = 0 then
    none
  else
    some (setCell b (spawnPos b pick).1 (spawnPos b pick).2
      (some (if four then 4 else 2)))

/-- The while-loop of slideRowLeft over the list of non-empty tile values:
    returns the merged values and whether any merge happened. -/
def mergeRun : List Nat → List Nat × Bool
  | [] => ([], false)
  | [a] => ([a], false)
  | a :: b :: rest =>
    if a = b then
      ((a * 2) :: (mergeRun rest).1, true)
    else
      let r := mergeRun (b :: rest)
      (a :: r.1, r.2)

/-- slideRowLeft from boardUtils.ts: compact the non-empty tiles, merge
    adjacent equal pairs once each, right-pad with empties, and report
    whether a merge happened or any position changed. -/
def slideRowLeft (row : List Cell) : List Cell × Bool :=
  let nonEmpty := row.filterMap id
  let m := mergeRun nonEmpty
  let result := m.1.map some ++ List.replicate (row.length - m.1.length) none
  (result, m.2 || decide (row ≠ result))

/-- reverseRow from boardUtils.ts. -/
def reverseRow (row : List Cell) : List Cell :=
  row.reverse

/-- transposeBoard from boardUtils.ts.  Note that it iterates the fixed
    constants BOARD_COLS and BOARD_ROWS, not the dimensions of its input. -/
def transposeBoard (b : Board) : Board :=
  (List.range BOARD_COLS).map (fun c =>
    (List.range BOARD_ROWS).map (fun r => cellAt b r c))

/-- moveLeft from boardUtils.ts: slide every row, OR the changed flags. -/
def moveLeft (b : Board) : MoveResult :=
  { newBoard := b.map (fun row => (slideRowLeft row).1)
    changed := b.any (fun row => (slideRowLeft row).2) }

/-- moveRight from boardUtils.ts: reverse, slide left, reverse back. -/
def moveRight (b : Board) : MoveResult :=
  { newBoard := b.map (fun row => (reverseRow (slideRowLeft (reverseRow row)).1))
    changed := b.any (fun row => (slideRowLeft (reverseRow row)).2) }

/-- moveUp from boardUtils.ts: transpose, move left, transpose back. -/
def moveUp (b : Board) : MoveResult :=
  let t := transposeBoard b
  let r := moveLeft t
  { newBoard := transposeBoard r.newBoard, changed := r.changed }

/-- moveDown from boardUtils.ts: transpose, move right, transpose back. -/
def moveDown (b : Board) : MoveResult :=
  let t := transposeBoard b
  let r := moveRight t
  { newBoard := transposeBoard r.newBoard, changed := r.changed }

/-- move from boardUtils.ts: dispatch on the direction string; the default
    branch of the switch returns the input board with changed = false. -/
def move (b : Board) (direction : String) : MoveResult :=
  if direction = "left" then moveLeft b
  else if direction = "right" then moveRight b
  else if direction = "up" then moveUp b
  else if direction = "down" then moveDown b
  else { newBoard := b, changed := false }

/-- hasWon from boardUtils.ts: some cell holds 2048. -/
def hasWon (b : Board) : Bool :=
  (List.range BOARD_ROWS).any (fun r =>
    (List.range BOARD_COLS).any (fun c => cellAt b r c == some 2048))

/-- isBoardFull from boardUtils.ts: no cell is empty. -/
def isBoardFull (b : Board) : Bool :=
  (List.range BOARD_ROWS).all (fun r =>
    (List.range BOARD_COLS).all (fun c => !(cellAt b r c == none)))

/-- hasAdjacentMerge from boardUtils.ts: some horizontally or vertically
    adjacent pair of cells holds equal non-null values. -/
def hasAdjacentMerge (b : Board) : Bool :=
  ((List.range BOARD_ROWS).any (fun r =>
    (List.range (BOARD_COLS - 1)).any (fun c =>
      !(cellAt b r c == none) && (cellAt b r c == cellAt b r (c + 1))))) ||
  ((List.range BOARD_COLS).any (fun c =>
    (List.range (BOARD_ROWS - 1)).any (fun r =>
      !(cellAt b r c == none) && (cellAt b r c == cellAt b (r + 1) c))))

/-- hasLost from boardUtils.ts: full board with no adjacent merge. -/
def hasLost (b : Board) : Bool :=
  if !(isBoardFull b) then false else !(hasAdjacentMerge b)

/-- handleMove from the game component: apply the move; when it changed the
    board and did not win, spawn a tile (falling back to the unspawned board
    when spawning reports no empty cell); otherwise keep the input board.
    The random draws of the spawn are the parameters pick and four; the
    game-status bookkeeping does not affect the returned board. -/
def handleMove (b : Board) (direction : String) (pick : Nat) (four : Bool) : Board :=
  if b.length = 0 then b
  else if (move b direction).changed then
    if hasWon (move b direction).newBoard then (move b direction).newBoard
    else
      match addRandomTile (move b direction).newBoard pick four with
      | some nb => nb
      | none => (move b direction).newBoard
  else b

/-- Value of a cell for summing (empty counts 0). -/
def cellVal (c : Cell) : Nat :=
  c.getD 0

/-- Sum of the tile values in one row. -/
def rowSum (row : List Cell) : Nat :=
  (row.map cellVal).sum

/-- Sum of all tile values on the board. -/
def boardSum (b : Board) : Nat :=
  (b.map rowSum).sum

/-- 1 for a tile, 0 for an empty cell. -/
def cellCnt (c : Cell) : Nat :=
  if c.isSome then 1 else 0

/-- Number of tiles in one row. -/
def rowCnt (row : List Cell) : Nat :=
  (row.map cellCnt).sum

/-- Number of tiles on the board. -/
def tileCount (b : Board) : Nat :=
  (b.map rowCnt).sum

/-- Well-formedness at the deployed dimensions: 4 rows of 4 cells. -/
def wfBoard (b : Board) : Prop :=
  b.length = BOARD_ROWS ∧ ∀ row ∈ b, row.length = BOARD_COLS

instance : DecidablePred wfBoard := fun b => by
  unfold wfBoard
  infer_instance

/-- Modelled from the spec: a board is full when no cell inside the
    4 x 4 frame is empty. -/
def isFullSpec (b : Board) : Prop :=
  ∀ r < BOARD_ROWS, ∀ c < BOARD_COLS, cellAt b r c ≠ none

/-- Modelled from the spec: some pair of equal, horizontally or vertically
    adjacent non-empty cells exists inside the 4 x 4 frame. -/
def adjacentEqualPairSpec (b : Board) : Prop :=
  (∃ r < BOARD_ROWS, ∃ c, c + 1 < BOARD_COLS ∧
    cellAt b r c ≠ none ∧ cellAt b r c = cellAt b r (c + 1)) ∨
  (∃ c < BOARD_COLS, ∃ r, r + 1 < BOARD_ROWS ∧
    cellAt b r c ≠ none ∧ cellAt b r c = cellAt b (r + 1) c)

/-- The worked example board of the spec's win/loss boundary scenarios. -/
def exampleBoard : Board :=
  [[none, some 8, some 2, some 2],
   [some 4, some 2, none, some 2],
   [none, none, none, none],
   [none, none, none, some 2]]

/-- The spec's full, mergeless loss-example board. -/
def lostBoard : Board :=
  [[some 2, some 4, some 2, some 4],
   [some 4, some 2, some 4, some 2],
   [some 2, some 4, some 2, some 4],
   [some 4, some 2, some 4, some 2]]

/-- A board whose first row merges twice under a left move: it exhibits a
    tile-count decrease across a full move cycle. -/
def quadRowBoard : Board :=
  [[some 2, some 2, some 2, some 2],
   [none, none, none, none],
   [none, none, none, none],
   [none, none, none, none]]

/-- A non-square, 5-rows-by-4-columns board.  transposeBoard on it reads
    only rows 0..3 and columns 0..3, which all exist, so the source runs it
    without any out-of-range access and simply drops the fifth row. -/
def fiveByFourBoard : Board :=
  [[some 2, some 4, some 8, some 16],
   [some 4, some 8, some 16, some 32],
   [some 8, some 16, some 32, some 64],
   [some 16, some 32, some 64, some 128],
   [some 32, some 64, some 128, some 256]]

/-- A board with exactly one empty cell, at row 3, column 2. -/
def oneEmptyBoard : Board :=
  [[some 2, some 4, some 2, some 4],
   [some 4, some 2, some 4, some 2],
   [some 2, some 4, some 2, some 4],
   [some 4, some 2, none, some 2]]

theorem mergeRun_eq_merge (b : Nat) (rest : List Nat) :
    mergeRun (b :: b :: rest) = ((b * 2) :: (mergeRun rest).1, true) := by
  simp [mergeRun]

theorem mergeRun_eq_skip (a b : Nat) (rest : List Nat) (h : ¬a = b) :
    mergeRun (a :: b :: rest) =
      (a :: (mergeRun (b :: rest)).1, (mergeRun (b :: rest)).2) := by
  simp [mergeRun, h]

theorem mergeRun_sum (l : List Nat) : (mergeRun l).1.sum = l.sum := by
  induction l using mergeRun.induct with
  | case1 => rfl
  | case2 a => rfl
  | case3 b rest ih =>
    rw [mergeRun_eq_merge]
    simp only [List.sum_cons, ih]
    omega
  | case4 a b rest hne ih =>
    rw [mergeRun_eq_skip a b rest hne]
    simp only [List.sum_cons, ih]

theorem mergeRun_length_le (l : List Nat) : (mergeRun l).1.length ≤ l.length := by
  induction l using mergeRun.induct with
  | case1 => exact Nat.le_refl 0
  | case2 a => exact Nat.le_refl 1
  | case3 b rest ih =>
    rw [mergeRun_eq_merge]
    simp only [List.length_cons]
    omega
  | case4 a b rest hne ih =>
    rw [mergeRun_eq_skip a b rest hne]
    simp only [List.length_cons] at *
    omega

theorem mergeRun_length_lt (l : List Nat) (h : (mergeRun l).2 = true) :
    (mergeRun l).1.length < l.length := by
  induction l using mergeRun.induct with
  | case1 => simp [mergeRun] at h
  | case2 a => simp [mergeRun] at h
  | case3 b rest ih =>
    have hle := mergeRun_length_le rest
    rw [mergeRun_eq_merge]
    simp only [List.length_cons]
    omega
  | case4 a b rest hne ih =>
    rw [mergeRun_eq_skip a b rest hne] at h ⊢
    simp only [List.length_cons]
    exact Nat.succ_lt_succ (ih h)

theorem mergeRun_unchanged (l : List Nat) (h : (mergeRun l).2 = false) :
    (mergeRun l).1 = l := by
  induction l using mergeRun.induct with
  | case1 => rfl
  | case2 a => rfl
  | case3 b rest ih =>
    rw [mergeRun_eq_merge] at h
    simp at h
  | case4 a b rest hne ih =>
    rw [mergeRun_eq_skip a b rest hne] at h ⊢
    rw [ih h]

theorem mergeRun_blocks (l : List Nat) :
    ∃ parts : List (List Nat), parts.flatten = l ∧
      (mergeRun l).1 = parts.map List.sum ∧
      ∀ p ∈ parts, (∃ v, p = [v]) ∨ (∃ v, p = [v, v]) := by
  induction l using mergeRun.induct with
  | case1 => exact ⟨[], by simp [mergeRun]⟩
  | case2 a =>
    refine ⟨[[a]], by simp [mergeRun]⟩
  | case3 b rest ih =>
    obtain ⟨parts, hflat, hmap, hshape⟩ := ih
    refine ⟨[b, b] :: parts, ?_, ?_, ?_⟩
    · simp [hflat]
    · rw [mergeRun_eq_merge, hmap]
      simp only [List.map_cons, List.sum_cons, List.sum_nil, List.cons.injEq,
        and_true, true_and]
      omega
    · intro p hp
      rcases List.mem_cons.mp hp with hp | hp
      · exact Or.inr ⟨b, hp⟩
      · exact hshape p hp
  | case4 a b rest hne ih =>
    obtain ⟨parts, hflat, hmap, hshape⟩ := ih
    refine ⟨[a] :: parts, ?_, ?_, ?_⟩
    · simp [hflat]
    · rw [mergeRun_eq_skip a b rest hne, hmap]
      simp
    · intro p hp
      rcases List.mem_cons.mp hp with hp | hp
      · exact Or.inl ⟨a, hp⟩
      · exact hshape p hp

theorem filterMap_id_cons_none (t : List Cell) :
    (((none : Cell) :: t).filterMap id) = t.filterMap id := by
  rfl

theorem filterMap_id_cons_some (v : Nat) (t : List Cell) :
    ((some v :: t).filterMap id) = v :: t.filterMap id := by
  rfl

theorem filterMap_sum_eq_rowSum (row : List Cell) :
    (row.filterMap id).sum = rowSum row := by
  induction row with
  | nil => rfl
  | cons c t ih =>
    cases c with
    | none =>
      rw [filterMap_id_cons_none]
      simp only [rowSum, List.map_cons, List.sum_cons, cellVal,
        Option.getD_none] at *
      omega
    | some v =>
      rw [filterMap_id_cons_some]
      simp only [rowSum, List.map_cons, List.sum_cons, cellVal,
        Option.getD_some] at *
      omega

theorem filterMap_length_eq_rowCnt (row : List Cell) :
    (row.filterMap id).length = rowCnt row := by
  induction row with
  | nil => rfl
  | cons c t ih =>
    cases c with
    | none =>
      rw [filterMap_id_cons_none]
      simp [rowCnt, cellCnt] at *
      omega
    | some v =>
      rw [filterMap_id_cons_some]
      simp [rowCnt, cellCnt] at *
      omega

theorem row_of_filterMap_full (row : List Cell)
    (h : (row.filterMap id).length = row.length) :
    row = (row.filterMap id).map some := by
  induction row with
  | nil => rfl
  | cons c t ih =>
    cases c with
    | none =>
      exfalso
      have hle := List.length_filterMap_le id t
      rw [filterMap_id_cons_none, List.length_cons] at h
      omega
    | some v =>
      rw [filterMap_id_cons_some, List.length_cons, List.length_cons] at h
      rw [filterMap_id_cons_some, List.map_cons]
      exact congrArg (some v :: ·) (ih (Nat.succ_injective h))

theorem slideRowLeft_fst (row : List Cell) :
    (slideRowLeft row).1 =
      (mergeRun (row.filterMap id)).1.map some ++
        List.replicate (row.length - (mergeRun (row.filterMap id)).1.length)
          none := rfl

theorem slideRowLeft_snd (row : List Cell) :
    (slideRowLeft row).2 =
      ((mergeRun (row.filterMap id)).2 ||
        decide (row ≠ (slideRowLeft row).1)) := rfl

theorem slideRowLeft_length (row : List Cell) :
    (slideRowLeft row).1.length = row.length := by
  have h1 := mergeRun_length_le (row.filterMap id)
  have h2 := List.length_filterMap_le id row
  rw [slideRowLeft_fst]
  simp only [List.length_append, List.length_map, List.length_replicate]
  omega

theorem rowSum_padded (m : List Nat) (k : Nat) :
    rowSum (m.map some ++ List.replicate k none) = m.sum := by
  induction m with
  | nil =>
    induction k with
    | zero => rfl
    | succ n ih =>
      simp [rowSum, cellVal, List.replicate_succ]
  | cons v t ih =>
    simpa [rowSum, cellVal] using ih

theorem rowCnt_padded (m : List Nat) (k : Nat) :
    rowCnt (m.map some ++ List.replicate k none) = m.length := by
  induction m with
  | nil =>
    induction k with
    | zero => rfl
    | succ n ih =>
      simp [rowCnt, cellCnt, List.replicate_succ]
  | cons v t ih =>
    simp [rowCnt, cellCnt] at *
    omega

theorem slideRowLeft_rowSum (row : List Cell) :
    rowSum (slideRowLeft row).1 = rowSum row := by
  rw [slideRowLeft_fst, rowSum_padded, mergeRun_sum, filterMap_sum_eq_rowSum]

theorem slideRowLeft_rowCnt_le (row : List Cell) :
    rowCnt (slideRowLeft row).1 ≤ rowCnt row := by
  rw [slideRowLeft_fst, rowCnt_padded, ← filterMap_length_eq_rowCnt]
  exact mergeRun_length_le (row.filterMap id)

theorem slideRowLeft_unchanged (row : List Cell)
    (h : (slideRowLeft row).2 = false) : (slideRowLeft row).1 = row := by
  rw [slideRowLeft_snd] at h
  simp only [Bool.or_eq_false_iff, decide_eq_false_iff_not, ne_eq,
    not_not] at h
  exact h.2.symm

theorem slideRowLeft_changed_mem_none (row : List Cell)
    (h : (slideRowLeft row).2 = true) : none ∈ (slideRowLeft row).1 := by
  have hlen := mergeRun_length_le (row.filterMap id)
  have hfl := List.length_filterMap_le id row
  by_cases hm : (mergeRun (row.filterMap id)).2 = true
  · have hlt := mergeRun_length_lt _ hm
    rw [slideRowLeft_fst]
    refine List.mem_append_right _ ?_
    rw [List.mem_replicate]
    exact ⟨by omega, rfl⟩
  · have hm2 : (mergeRun (row.filterMap id)).2 = false := by
      cases hb : (mergeRun (row.filterMap id)).2
      · rfl
      · exact absurd hb hm
    have heq := mergeRun_unchanged _ hm2
    have hne : row ≠ (slideRowLeft row).1 := by
      rw [slideRowLeft_snd, hm2, Bool.false_or, decide_eq_true_eq] at h
      exact h
    by_cases hful : (row.filterMap id).length = row.length
    · exfalso
      apply hne
      rw [slideRowLeft_fst, heq, hful, Nat.sub_self, List.replicate_zero,
        List.append_nil]
      exact row_of_filterMap_full row hful
    · rw [slideRowLeft_fst]
      refine List.mem_append_right _ ?_
      rw [List.mem_replicate]
      refine ⟨?_, rfl⟩
      rw [heq]
      omega

theorem moveLeft_unchanged (b : Board) (h : (moveLeft b).changed = false) :
    (moveLeft b).newBoard = b := by
  have hall : ∀ row ∈ b, (slideRowLeft row).2 = false := by
    have := h
    simp only [moveLeft, List.any_eq_false] at this
    intro row hr
    have hx := this row hr
    cases hb : (slideRowLeft row).2
    · rfl
    · exact absurd hb hx
  show b.map (fun row => (slideRowLeft row).1) = b
  conv_rhs => rw [← List.map_id b]
  exact List.map_congr_left (fun row hr => slideRowLeft_unchanged row (hall row hr))

theorem moveRight_unchanged (b : Board) (h : (moveRight b).changed = false) :
    (moveRight b).newBoard = b := by
  have hall : ∀ row ∈ b, (slideRowLeft (reverseRow row)).2 = false := by
    have := h
    simp only [moveRight, List.any_eq_false] at this
    intro row hr
    have hx := this row hr
    cases hb : (slideRowLeft (reverseRow row)).2
    · rfl
    · exact absurd hb hx
  show b.map (fun row => reverseRow (slideRowLeft (reverseRow row)).1) = b
  conv_rhs => rw [← List.map_id b]
  refine List.map_congr_left (fun row hr => ?_)
  rw [slideRowLeft_unchanged (reverseRow row) (hall row hr)]
  exact List.reverse_reverse row

theorem moveLeft_changed_mem (b : Board) (h : (moveLeft b).changed = true) :
    ∃ row ∈ (moveLeft b).newBoard, none ∈ row := by
  have hx : ∃ row ∈ b, (slideRowLeft row).2 = true := by
    simpa only [moveLeft, List.any_eq_true] using h
  obtain ⟨row, hr, hch⟩ := hx
  exact ⟨(slideRowLeft row).1, List.mem_map_of_mem _ hr,
    slideRowLeft_changed_mem_none row hch⟩

theorem moveRight_changed_mem (b : Board) (h : (moveRight b).changed = true) :
    ∃ row ∈ (moveRight b).newBoard, none ∈ row := by
  have hx : ∃ row ∈ b, (slideRowLeft (reverseRow row)).2 = true := by
    simpa only [moveRight, List.any_eq_true] using h
  obtain ⟨row, hr, hch⟩ := hx
  refine ⟨reverseRow (slideRowLeft (reverseRow row)).1,
    List.mem_map_of_mem _ hr, ?_⟩
  unfold reverseRow
  rw [List.mem_reverse]
  exact slideRowLeft_changed_mem_none (reverseRow row) hch

theorem moveLeft_wf (b : Board) (h : wfBoard b) :
    wfBoard (moveLeft b).newBoard := by
  obtain ⟨hlen, hrows⟩ := h
  constructor
  · simpa [moveLeft] using hlen
  · intro row hr
    simp only [moveLeft, List.mem_map] at hr
    obtain ⟨orig, ho, rfl⟩ := hr
    rw [slideRowLeft_length]
    exact hrows orig ho

theorem moveRight_wf (b : Board) (h : wfBoard b) :
    wfBoard (moveRight b).newBoard := by
  obtain ⟨hlen, hrows⟩ := h
  constructor
  · simpa [moveRight] using hlen
  · intro row hr
    simp only [moveRight, List.mem_map] at hr
    obtain ⟨orig, ho, rfl⟩ := hr
    unfold reverseRow
    rw [List.length_reverse, slideRowLeft_length, List.length_reverse]
    exact hrows orig ho

theorem transpose_wf (b : Board) : wfBoard (transposeBoard b) := by
  constructor
  · simp [transposeBoard, BOARD_ROWS, BOARD_COLS]
  · intro row hr
    simp only [transposeBoard, List.mem_map] at hr
    obtain ⟨c, hc, rfl⟩ := hr
    simp [BOARD_ROWS, BOARD_COLS]

theorem list_length_four {α : Type} (l : List α) (h : l.length = 4) :
    ∃ a b c d, l = [a, b, c, d] := by
  cases l with
  | nil => simp at h
  | cons a l1 =>
    cases l1 with
    | nil => simp at h
    | cons b l2 =>
      cases l2 with
      | nil => simp at h
      | cons c l3 =>
        cases l3 with
        | nil => simp at h
        | cons d l4 =>
          cases l4 with
          | nil => exact ⟨a, b, c, d, rfl⟩
          | cons e l5 =>
            exfalso
            simp only [List.length_cons] at h
            omega

theorem wf_destruct (bd : Board) (h : wfBoard bd) :
    ∃ x00 x01 x02 x03 x10 x11 x12 x13 x20 x21 x22 x23 x30 x31 x32 x33,
      bd = [[x00, x01, x02, x03], [x10, x11, x12, x13],
            [x20, x21, x22, x23], [x30, x31, x32, x33]] := by
  obtain ⟨hlen, hrows⟩ := h
  obtain ⟨r0, r1, r2, r3, rfl⟩ := list_length_four bd hlen
  obtain ⟨x00, x01, x02, x03, rfl⟩ :=
    list_length_four r0 (hrows r0 (by simp))
  obtain ⟨x10, x11, x12, x13, rfl⟩ :=
    list_length_four r1 (hrows r1 (by simp))
  obtain ⟨x20, x21, x22, x23, rfl⟩ :=
    list_length_four r2 (hrows r2 (by simp))
  obtain ⟨x30, x31, x32, x33, rfl⟩ :=
    list_length_four r3 (hrows r3 (by simp))
  exact ⟨x00, x01, x02, x03, x10, x11, x12, x13, x20, x21, x22, x23,
    x30, x31, x32, x33, rfl⟩

theorem transpose_transpose (b : Board) (h : wfBoard b) :
    transposeBoard (transposeBoard b) = b := by
  obtain ⟨x00, x01, x02, x03, x10, x11, x12, x13, x20, x21, x22, x23,
    x30, x31, x32, x33, rfl⟩ := wf_destruct b h
  rfl

theorem boardSum_transpose (b : Board) (h : wfBoard b) :
    boardSum (transposeBoard b) = boardSum b := by
  obtain ⟨x00, x01, x02, x03, x10, x11, x12, x13, x20, x21, x22, x23,
    x30, x31, x32, x33, rfl⟩ := wf_destruct b h
  show boardSum
      [[x00, x10, x20, x30], [x01, x11, x21, x31],
       [x02, x12, x22, x32], [x03, x13, x23, x33]] =
    boardSum
      [[x00, x01, x02, x03], [x10, x11, x12, x13],
       [x20, x21, x22, x23], [x30, x31, x32, x33]]
  simp only [boardSum, rowSum, List.map_cons, List.map_nil, List.sum_cons,
    List.sum_nil]
  ring

theorem tileCount_transpose (b : Board) (h : wfBoard b) :
    tileCount (transposeBoard b) = tileCount b := by
  obtain ⟨x00, x01, x02, x03, x10, x11, x12, x13, x20, x21, x22, x23,
    x30, x31, x32, x33, rfl⟩ := wf_destruct b h
  show tileCount
      [[x00, x10, x20, x30], [x01, x11, x21, x31],
       [x02, x12, x22, x32], [x03, x13, x23, x33]] =
    tileCount
      [[x00, x01, x02, x03], [x10, x11, x12, x13],
       [x20, x21, x22, x23], [x30, x31, x32, x33]]
  simp only [tileCount, rowCnt, List.map_cons, List.map_nil, List.sum_cons,
    List.sum_nil]
  ring

theorem boardSum_map (b : Board) (f : List Cell → List Cell)
    (h : ∀ row ∈ b, rowSum (f row) = rowSum row) :
    boardSum (b.map f) = boardSum b := by
  induction b with
  | nil => rfl
  | cons r t ih =>
    simp only [List.map_cons, boardSum, List.sum_cons] at *
    rw [h r (List.mem_cons_self r t),
      ih (fun row hr => h row (List.mem_cons_of_mem r hr))]

theorem tileCount_map_le (b : Board) (f : List Cell → List Cell)
    (h : ∀ row ∈ b, rowCnt (f row) ≤ rowCnt row) :
    tileCount (b.map f) ≤ tileCount b := by
  induction b with
  | nil => exact Nat.le_refl 0
  | cons r t ih =>
    simp only [List.map_cons, tileCount, List.sum_cons] at *
    have h1 := h r (List.mem_cons_self r t)
    have h2 := ih (fun row hr => h row (List.mem_cons_of_mem r hr))
    omega

theorem rowSum_reverse (row : List Cell) : rowSum (reverseRow row) = rowSum row := by
  unfold reverseRow rowSum
  rw [List.map_reverse, List.sum_reverse]

theorem rowCnt_reverse (row : List Cell) : rowCnt (reverseRow row) = rowCnt row := by
  unfold reverseRow rowCnt
  rw [List.map_reverse, List.sum_reverse]

theorem boardSum_moveLeft (b : Board) :
    boardSum (moveLeft b).newBoard = boardSum b :=
  boardSum_map b _ (fun row _ => slideRowLeft_rowSum row)

theorem boardSum_moveRight (b : Board) :
    boardSum (moveRight b).newBoard = boardSum b :=
  boardSum_map b _ (fun row _ => by
    rw [rowSum_reverse, slideRowLeft_rowSum, rowSum_reverse])

theorem tileCount_moveLeft_le (b : Board) :
    tileCount (moveLeft b).newBoard ≤ tileCount b :=
  tileCount_map_le b _ (fun row _ => slideRowLeft_rowCnt_le row)

theorem tileCount_moveRight_le (b : Board) :
    tileCount (moveRight b).newBoard ≤ tileCount b :=
  tileCount_map_le b _ (fun row _ => by
    rw [rowCnt_reverse]
    calc rowCnt (slideRowLeft (reverseRow row)).1
        ≤ rowCnt (reverseRow row) := slideRowLeft_rowCnt_le (reverseRow row)
      _ = rowCnt row := rowCnt_reverse row)

theorem boardSum_move (b : Board) (h : wfBoard b) (dir : String) :
    boardSum (move b dir).newBoard = boardSum b := by
  unfold move
  split_ifs with h1 h2 h3 h4
  · exact boardSum_moveLeft b
  · exact boardSum_moveRight b
  · show boardSum (transposeBoard (moveLeft (transposeBoard b)).newBoard) = boardSum b
    rw [boardSum_transpose _ (moveLeft_wf _ (transpose_wf b)),
      boardSum_moveLeft, boardSum_transpose b h]
  · show boardSum (transposeBoard (moveRight (transposeBoard b)).newBoard) = boardSum b
    rw [boardSum_transpose _ (moveRight_wf _ (transpose_wf b)),
      boardSum_moveRight, boardSum_transpose b h]
  · rfl

theorem tileCount_move_le (b : Board) (h : wfBoard b) (dir : String) :
    tileCount (move b dir).newBoard ≤ tileCount b := by
  unfold move
  split_ifs with h1 h2 h3 h4
  · exact tileCount_moveLeft_le b
  · exact tileCount_moveRight_le b
  · show tileCount (transposeBoard (moveLeft (transposeBoard b)).newBoard) ≤ tileCount b
    rw [tileCount_transpose _ (moveLeft_wf _ (transpose_wf b))]
    calc tileCount (moveLeft (transposeBoard b)).newBoard
        ≤ tileCount (transposeBoard b) := tileCount_moveLeft_le _
      _ = tileCount b := tileCount_transpose b h
  · show tileCount (transposeBoard (moveRight (transposeBoard b)).newBoard) ≤ tileCount b
    rw [tileCount_transpose _ (moveRight_wf _ (transpose_wf b))]
    calc tileCount (moveRight (transposeBoard b)).newBoard
        ≤ tileCount (transposeBoard b) := tileCount_moveRight_le _
      _ = tileCount b := tileCount_transpose b h
  · exact Nat.le_refl _

theorem cellAt_transpose (b : Board) (x y : Nat)
    (hx : x < BOARD_COLS) (hy : y < BOARD_ROWS) :
    cellAt (transposeBoard b) x y = cellAt b y x := by
  have hx4 : x < 4 := hx
  have hy4 : y < 4 := hy
  interval_cases x <;> interval_cases y <;> rfl

theorem mem_emptyPositions (b : Board) (r c : Nat) :
    (r, c) ∈ emptyPositions b ↔
      r < BOARD_ROWS ∧ c < BOARD_COLS ∧ cellAt b r c = none := by
  unfold emptyPositions
  simp only [List.mem_flatMap, List.mem_filterMap, List.mem_range]
  constructor
  · rintro ⟨r1, hr1, c1, hc1, hif⟩
    by_cases hcell : cellAt b r1 c1 = none
    · rw [if_pos hcell] at hif
      have h1 : r1 = r := congrArg Prod.fst (Option.some.inj hif)
      have h2 : c1 = c := congrArg Prod.snd (Option.some.inj hif)
      subst h1
      subst h2
      exact ⟨hr1, hc1, hcell⟩
    · rw [if_neg hcell] at hif
      exact absurd hif (by simp)
  · rintro ⟨hr, hc, hcell⟩
    exact ⟨r, hr, c, hc, by rw [if_pos hcell]⟩

theorem addRandomTile_isSome (b : Board) (pick : Nat) (four : Bool)
    (h : emptyPositions b ≠ []) :
    (addRandomTile b pick four).isSome = true := by
  unfold addRandomTile
  rw [if_neg (by simpa [List.length_eq_zero] using h)]
  rfl

theorem getD_set_eq {α : Type} (l : List α) (i : Nat) (x d : α)
    (h : i < l.length) : (l.set i x).getD i d = x := by
  induction l generalizing i with
  | nil => simp at h
  | cons a t ih =>
    cases i with
    | zero => rfl
    | succ n =>
      simp only [List.set_cons_succ, List.getD_cons_succ]
      exact ih n (by simpa using h)

theorem getD_set_ne {α : Type} (l : List α) (i j : Nat) (x d : α)
    (h : i ≠ j) : (l.set i x).getD j d = l.getD j d := by
  induction l generalizing i j with
  | nil => rfl
  | cons a t ih =>
    cases i with
    | zero =>
      cases j with
      | zero => exact absurd rfl h
      | succ m => rfl
    | succ n =>
      cases j with
      | zero => rfl
      | succ m =>
        simp only [List.set_cons_succ, List.getD_cons_succ]
        exact ih n m (fun hh => h (congrArg Nat.succ hh))

theorem set_of_length_le {α : Type} (l : List α) (i : Nat) (x : α)
    (h : l.length ≤ i) : l.set i x = l := by
  induction l generalizing i with
  | nil => rfl
  | cons a t ih =>
    cases i with
    | zero => simp at h
    | succ n =>
      simp only [List.set_cons_succ]
      rw [ih n (by simpa using h)]

theorem cellAt_setCell_self (b : Board) (r c : Nat) (v : Cell)
    (hr : r < b.length) (hc : c < (b.getD r []).length) :
    cellAt (setCell b r c v) r c = v := by
  unfold cellAt setCell
  rw [getD_set_eq _ _ _ _ hr, getD_set_eq _ _ _ _ hc]

theorem cellAt_setCell_other (b : Board) (r c r2 c2 : Nat) (v : Cell)
    (h : ¬(r2 = r ∧ c2 = c)) :
    cellAt (setCell b r c v) r2 c2 = cellAt b r2 c2 := by
  unfold cellAt setCell
  by_cases hrr : r2 = r
  · subst hrr
    have hcc : c2 ≠ c := fun hh => h ⟨rfl, hh⟩
    by_cases hrange : r2 < b.length
    · rw [getD_set_eq _ _ _ _ hrange]
      exact getD_set_ne _ _ _ _ _ (fun hh => hcc hh.symm)
    · have hlen : b.length ≤ r2 := Nat.le_of_not_lt hrange
      have h1 : (b.set r2 ((b.getD r2 []).set c v)).getD r2 ([] : List Cell) =
          ([] : List Cell) :=
        List.getD_eq_default _ _ (by simpa using hlen)
      have h2 : b.getD r2 ([] : List Cell) = ([] : List Cell) :=
        List.getD_eq_default _ _ hlen
      rw [h1, h2]
  · rw [getD_set_ne _ _ _ _ _ (fun hh => hrr hh.symm)]

theorem rowCnt_set_le (row : List Cell) (c : Nat) (v : Cell) :
    rowCnt (row.set c v) ≤ rowCnt row + cellCnt v := by
  induction row generalizing c with
  | nil => simp [rowCnt]
  | cons a t ih =>
    cases c with
    | zero =>
      simp [rowCnt]
      omega
    | succ n =>
      simp only [List.set_cons_succ]
      have := ih n
      simp [rowCnt] at *
      omega

theorem tileCount_set_exch (b : Board) (r : Nat) (x : List Cell)
    (h : r < b.length) :
    tileCount (b.set r x) + rowCnt (b.getD r []) = tileCount b + rowCnt x := by
  induction b generalizing r with
  | nil => simp at h
  | cons row t ih =>
    cases r with
    | zero =>
      simp [tileCount]
      omega
    | succ n =>
      have hh := ih n (by simpa using h)
      simp only [List.set_cons_succ, List.getD_cons_succ]
      simp [tileCount] at *
      omega

theorem rowCnt_set_exch (row : List Cell) (c : Nat) (v : Cell)
    (h : c < row.length) :
    rowCnt (row.set c v) + cellCnt (row.getD c none) =
      rowCnt row + cellCnt v := by
  induction row generalizing c with
  | nil => simp at h
  | cons a t ih =>
    cases c with
    | zero =>
      simp [rowCnt]
      omega
    | succ n =>
      have hh := ih n (by simpa using h)
      simp only [List.set_cons_succ, List.getD_cons_succ]
      simp [rowCnt] at *
      omega

theorem tileCount_setCell_le (b : Board) (r c : Nat) (v : Nat) :
    tileCount (setCell b r c (some v)) ≤ tileCount b + 1 := by
  unfold setCell
  by_cases hr : r < b.length
  · have h1 := tileCount_set_exch b r ((b.getD r []).set c (some v)) hr
    have h2 := rowCnt_set_le (b.getD r []) c (some v)
    have h3 : cellCnt (some v) = 1 := rfl
    omega
  · rw [set_of_length_le _ _ _ (Nat.le_of_not_lt hr)]
    omega

theorem addRandomTile_count_le (b : Board) (pick : Nat) (four : Bool)
    (nb : Board) (h : addRandomTile b pick four = some nb) :
    tileCount nb ≤ tileCount b + 1 := by
  unfold addRandomTile at h
  by_cases hlen : (emptyPositions b).length = 0
  · rw [if_pos hlen] at h
    exact absurd h (by simp)
  · rw [if_neg hlen] at h
    rw [← Option.some.inj h]
    exact tileCount_setCell_le b (spawnPos b pick).1 (spawnPos b pick).2 _

theorem handleMove_count_le (b : Board) (h : wfBoard b) (dir : String)
    (pick : Nat) (four : Bool) :
    tileCount (handleMove b dir pick four) ≤ tileCount b + 1 := by
  have hmv := tileCount_move_le b h dir
  unfold handleMove
  by_cases h0 : b.length = 0
  · rw [if_pos h0]
    omega
  rw [if_neg h0]
  by_cases hch : (move b dir).changed = true
  · rw [if_pos hch]
    by_cases hw : hasWon (move b dir).newBoard = true
    · rw [if_pos hw]
      omega
    · rw [if_neg hw]
      cases hA : addRandomTile (move b dir).newBoard pick four with
      | none =>
        show tileCount (move b dir).newBoard ≤ tileCount b + 1
        omega
      | some nb =>
        have h2 := addRandomTile_count_le _ pick four nb hA
        show tileCount nb ≤ tileCount b + 1
        omega
  · rw [if_neg hch]
    omega

theorem handleMove_noop (b : Board) (dir : String) (pick : Nat) (four : Bool)
    (h : (move b dir).changed = false) :
    handleMove b dir pick four = b := by
  unfold handleMove
  by_cases h0 : b.length = 0
  · rw [if_pos h0]
  · rw [if_neg h0, h]
    rfl

theorem exists_none_cellAt (b2 : Board) (h : wfBoard b2)
    (hmem : ∃ row ∈ b2, none ∈ row) :
    ∃ r, r < BOARD_ROWS ∧ ∃ c, c < BOARD_COLS ∧ cellAt b2 r c = none := by
  obtain ⟨row, hrow, hn⟩ := hmem
  obtain ⟨i, hi, hget⟩ := List.mem_iff_getElem.mp hrow
  obtain ⟨j, hj, hgetj⟩ := List.mem_iff_getElem.mp hn
  obtain ⟨hlen, hrows⟩ := h
  refine ⟨i, by omega, j, ?_, ?_⟩
  · have := hrows row hrow
    omega
  · unfold cellAt
    rw [List.getD_eq_getElem b2 [] hi, hget,
      List.getD_eq_getElem row none hj, hgetj]

theorem emptyPositions_ne_nil (b2 : Board) (r c : Nat) (hr : r < BOARD_ROWS)
    (hc : c < BOARD_COLS) (hcell : cellAt b2 r c = none) :
    emptyPositions b2 ≠ [] :=
  List.ne_nil_of_mem ((mem_emptyPositions b2 r c).mpr ⟨hr, hc, hcell⟩)

theorem move_left_eq (b : Board) : move b "left" = moveLeft b := rfl

theorem move_right_eq (b : Board) : move b "right" = moveRight b := rfl

theorem move_up_eq (b : Board) : move b "up" = moveUp b := rfl

theorem move_down_eq (b : Board) : move b "down" = moveDown b := rfl

theorem moveUp_eq (b : Board) :
    moveUp b = { newBoard := transposeBoard (moveLeft (transposeBoard b)).newBoard,
                 changed := (moveLeft (transposeBoard b)).changed } := rfl

theorem moveDown_eq (b : Board) :
    moveDown b = { newBoard := transposeBoard (moveRight (transposeBoard b)).newBoard,
                   changed := (moveRight (transposeBoard b)).changed } := rfl

theorem move_changed_empty (b : Board) (h : wfBoard b) (dir : String)
    (hdir : dir = "left" ∨ dir = "right" ∨ dir = "up" ∨ dir = "down")
    (hch : (move b dir).changed = true) :
    emptyPositions (move b dir).newBoard ≠ [] := by
  rcases hdir with rfl | rfl | rfl | rfl
  · rw [move_left_eq] at hch ⊢
    obtain ⟨row, hrow, hn⟩ := moveLeft_changed_mem b hch
    obtain ⟨r, hr, c, hc, hcell⟩ :=
      exists_none_cellAt _ (moveLeft_wf b h) ⟨row, hrow, hn⟩
    exact emptyPositions_ne_nil _ r c hr hc hcell
  · rw [move_right_eq] at hch ⊢
    obtain ⟨row, hrow, hn⟩ := moveRight_changed_mem b hch
    obtain ⟨r, hr, c, hc, hcell⟩ :=
      exists_none_cellAt _ (moveRight_wf b h) ⟨row, hrow, hn⟩
    exact emptyPositions_ne_nil _ r c hr hc hcell
  · rw [move_up_eq, moveUp_eq] at hch ⊢
    obtain ⟨row, hrow, hn⟩ := moveLeft_changed_mem _ hch
    obtain ⟨r, hr, c, hc, hcell⟩ :=
      exists_none_cellAt _ (moveLeft_wf _ (transpose_wf b)) ⟨row, hrow, hn⟩
    refine emptyPositions_ne_nil _ c r hc hr ?_
    rw [cellAt_transpose _ c r hc hr]
    exact hcell
  · rw [move_down_eq, moveDown_eq] at hch ⊢
    obtain ⟨row, hrow, hn⟩ := moveRight_changed_mem _ hch
    obtain ⟨r, hr, c, hc, hcell⟩ :=
      exists_none_cellAt _ (moveRight_wf _ (transpose_wf b)) ⟨row, hrow, hn⟩
    refine emptyPositions_ne_nil _ c r hc hr ?_
    rw [cellAt_transpose _ c r hc hr]
    exact hcell

theorem move_default (b : Board) (dir : String)
    (h1 : ¬dir = "left") (h2 : ¬dir = "right") (h3 : ¬dir = "up")
    (h4 : ¬dir = "down") :
    move b dir = { newBoard := b, changed := false } := by
  unfold move
  rw [if_neg h1, if_neg h2, if_neg h3, if_neg h4]

theorem isBoardFull_iff (b : Board) : isBoardFull b = true ↔ isFullSpec b := by
  unfold isBoardFull isFullSpec
  simp [List.all_eq_true, List.mem_range]

theorem hasAdjacentMerge_iff (b : Board) :
    hasAdjacentMerge b = true ↔ adjacentEqualPairSpec b := by
  unfold hasAdjacentMerge adjacentEqualPairSpec
  simp only [BOARD_ROWS, BOARD_COLS]
  rw [Bool.or_eq_true]
  simp only [List.any_eq_true, List.mem_range, Bool.and_eq_true,
    Bool.not_eq_true', beq_eq_false_iff_ne, beq_iff_eq, ne_eq]
  constructor
  · rintro (⟨r, hr, c, hc, hne, heq⟩ | ⟨c, hc, r, hr, hne, heq⟩)
    · exact Or.inl ⟨r, hr, c, by omega, hne, heq⟩
    · exact Or.inr ⟨c, hc, r, by omega, hne, heq⟩
  · rintro (⟨r, hr, c, hc, hne, heq⟩ | ⟨c, hc, r, hr, hne, heq⟩)
    · exact Or.inl ⟨r, hr, c, by omega, hne, heq⟩
    · exact Or.inr ⟨c, hc, r, by omega, hne, heq⟩

theorem hasLost_iff (b : Board) :
    hasLost b = true ↔ (isFullSpec b ∧ ¬adjacentEqualPairSpec b) := by
  cases hf : isBoardFull b with
  | false =>
    have h1 : ¬isFullSpec b := by
      rw [← isBoardFull_iff, hf]
      simp
    unfold hasLost
    rw [hf]
    simp [h1]
  | true =>
    have h1 : isFullSpec b := (isBoardFull_iff b).mp hf
    unfold hasLost
    rw [hf]
    show (!hasAdjacentMerge b) = true ↔ _
    rw [Bool.not_eq_true']
    constructor
    · intro ha
      refine ⟨h1, fun hspec => ?_⟩
      rw [← hasAdjacentMerge_iff] at hspec
      rw [hspec] at ha
      exact absurd ha (by simp)
    · rintro ⟨-, hna⟩
      cases hA : hasAdjacentMerge b
      · rfl
      · exact absurd ((hasAdjacentMerge_iff b).mp hA) hna

theorem singleton_empty_spawn (b : Board) (hwf : wfBoard b) (r c : Nat)
    (hone : emptyPositions b = [(r, c)]) (pick : Nat) (four : Bool) :
    addRandomTile b pick four =
      some (setCell b r c (some (if four then 4 else 2))) ∧
    r < b.length ∧ c < (b.getD r []).length := by
  have hmem : (r, c) ∈ emptyPositions b := by
    rw [hone]
    exact List.mem_singleton.mpr rfl
  obtain ⟨hr4, hc4, hcell⟩ := (mem_emptyPositions b r c).mp hmem
  obtain ⟨hlen, hrows⟩ := hwf
  have hrb : r < b.length := by
    rw [hlen]
    exact hr4
  have hrow_mem : b.getD r [] ∈ b := by
    rw [List.getD_eq_getElem b [] hrb]
    exact List.getElem_mem hrb
  have hclen : c < (b.getD r []).length := by
    rw [hrows _ hrow_mem]
    exact hc4
  have hsp : spawnPos b pick = (r, c) := by
    unfold spawnPos
    rw [hone]
    simp [Nat.mod_one]
  refine ⟨?_, hrb, hclen⟩
  unfold addRandomTile
  rw [hone, if_neg (by simp), hsp]

/-- C1: applying a left move to the board
    [[null,8,2,2],[4,2,null,2],[null,null,null,null],[null,null,null,2]]
    returns the expected board together with changed = true. -/
theorem c1_move_left_example :
    move exampleBoard "left" =
      { newBoard := [[some 8, some 4, none, none],
                     [some 4, some 4, none, none],
                     [none, none, none, none],
                     [some 2, none, none, none]],
        changed := true } := by
  decide

/-- C2: in a single row reduction each source tile takes part in at most one
    merge: the merged output decomposes the compacted input into consecutive
    blocks of one tile or two equal tiles, one output tile per block (so a
    tile produced by a merge is never itself merged again in the same pass);
    in particular sliding the row [2,2,2,null] left yields [4,2,null,null]. -/
theorem c2_single_merge_per_tile :
    (∀ l : List Nat, ∃ parts : List (List Nat), parts.flatten = l ∧
        (mergeRun l).1 = parts.map List.sum ∧
        ∀ p ∈ parts, (∃ v, p = [v]) ∨ (∃ v, p = [v, v])) ∧
    slideRowLeft [some 2, some 2, some 2, none] =
      ([some 4, some 2, none, none], true) :=
  ⟨mergeRun_blocks, by decide⟩

/-- C3: for every well-formed 4 x 4 board and every direction value, the
    board returned by move (before any spawn) has the same total tile sum as
    the input board. -/
theorem c3_move_preserves_sum (b : Board) (h : wfBoard b) (dir : String) :
    boardSum (move b dir).newBoard = boardSum b :=
  boardSum_move b h dir

/-- C3 witness: the sum-preservation at the spec's example board, moving
    left. -/
theorem c3_move_preserves_sum_witness :
    boardSum (move exampleBoard "left").newBoard = boardSum exampleBoard :=
  c3_move_preserves_sum exampleBoard (by decide) "left"

/-- C4 counterexample: a full move cycle can strictly decrease the tile
    count, refuting monotone non-decrease: on quadRowBoard a left move
    merges twice (4 tiles become 2) and the spawn adds only one tile back,
    so the count drops from 4 to 3. -/
theorem c4_counterexample :
    tileCount (handleMove quadRowBoard "left" 0 false) <
      tileCount quadRowBoard := by
  decide

/-- C4 amended: across a full move cycle (handleMove) the tile count
    increases by at most one, and when the move did not change the board no
    spawn occurs and the board (hence the count) is unchanged; the count is
    not monotone, because every merge removes a tile. -/
theorem c4_amended_count_bound (b : Board) (h : wfBoard b) (dir : String)
    (pick : Nat) (four : Bool) :
    tileCount (handleMove b dir pick four) ≤ tileCount b + 1 ∧
    ((move b dir).changed = false → handleMove b dir pick four = b) :=
  ⟨handleMove_count_le b h dir pick four,
   fun hc => handleMove_noop b dir pick four hc⟩

/-- C4 witness: the amended count bound at a concrete board and cycle. -/
theorem c4_amended_witness :
    tileCount (handleMove quadRowBoard "left" 0 false) ≤
      tileCount quadRowBoard + 1 :=
  (c4_amended_count_bound quadRowBoard (by decide) "left" 0 false).1

/-- C5 counterexample: for the out-of-enumeration direction value
    "diagonal", move silently returns the input board unchanged with
    changed = false instead of failing fast with an error. -/
theorem c5_counterexample :
    move exampleBoard "diagonal" =
      { newBoard := exampleBoard, changed := false } := by
  decide

/-- C5 amended: for every direction value outside the closed enumeration,
    move is a silent no-op: the default branch of the switch returns the
    input board with changed = false; it does not fail fast. -/
theorem c5_amended_default_noop (b : Board) (dir : String)
    (h : ¬(dir = "left" ∨ dir = "right" ∨ dir = "up" ∨ dir = "down")) :
    move b dir = { newBoard := b, changed := false } :=
  move_default b dir (fun hh => h (Or.inl hh))
    (fun hh => h (Or.inr (Or.inl hh)))
    (fun hh => h (Or.inr (Or.inr (Or.inl hh))))
    (fun hh => h (Or.inr (Or.inr (Or.inr hh))))

/-- C5 witness: the amended no-op behaviour at the concrete direction value
    "diagonal". -/
theorem c5_amended_witness :
    move lostBoard "diagonal" = { newBoard := lostBoard, changed := false } :=
  c5_amended_default_noop lostBoard "diagonal" (by decide)

/-- C6 counterexample: transposeBoard does not handle non-square boards:
    on the 5 x 4 board fiveByFourBoard it reads only the fixed 4 x 4 frame
    (rows 0..3, columns 0..3, all present, so the source executes exactly
    this computation with no out-of-range access) and returns a 4 x 4 board
    that drops the fifth row, not the claimed 4 x 5 transpose with
    result[c][r] = board[r][c] for every r < 5, c < 4. -/
theorem c6_counterexample :
    transposeBoard fiveByFourBoard ≠
      [[some 2, some 4, some 8, some 16, some 32],
       [some 4, some 8, some 16, some 32, some 64],
       [some 8, some 16, some 32, some 64, some 128],
       [some 16, some 32, some 64, some 128, some 256]] := by
  decide

/-- C6 amended: at the deployed 4 x 4 dimensions transposeBoard returns a
    4 x 4 board satisfying result[c][r] = board[r][c] for all r, c < 4; it
    does not generalize to other shapes because it iterates the fixed
    constants BOARD_COLS and BOARD_ROWS (cells outside that frame are
    dropped, as on the 5 x 4 counterexample board). -/
theorem c6_amended_transpose (b : Board) (_hwf : wfBoard b) :
    wfBoard (transposeBoard b) ∧
    ∀ r, r < BOARD_ROWS → ∀ c, c < BOARD_COLS →
      cellAt (transposeBoard b) c r = cellAt b r c :=
  ⟨transpose_wf b, fun r hr c hc => cellAt_transpose b c r hc hr⟩

/-- C6 witness: the amended transpose property at the spec's example
    board and the cell (0, 1). -/
theorem c6_amended_witness :
    wfBoard (transposeBoard exampleBoard) ∧
    cellAt (transposeBoard exampleBoard) 1 0 = cellAt exampleBoard 0 1 :=
  ⟨(c6_amended_transpose exampleBoard (by decide)).1,
   (c6_amended_transpose exampleBoard (by decide)).2 0 (by decide) 1
     (by decide)⟩

/-- C7: hasLost is true exactly when the board is full (no empty cell) and
    has no pair of equal, horizontally or vertically adjacent non-empty
    cells (so a non-full board is never a loss); in particular the spec's
    alternating full board is a loss. -/
theorem c7_hasLost_characterisation (b : Board) :
    (hasLost b = true ↔ (isFullSpec b ∧ ¬adjacentEqualPairSpec b)) ∧
    hasLost lostBoard = true :=
  ⟨hasLost_iff b, by decide⟩

/-- C8: spawning on a full board (no empty position) returns none rather
    than a board; spawning on a board with exactly one empty cell returns,
    for every random draw, the input board with exactly that cell set to 2
    or 4 and every other cell unchanged. -/
theorem c8_spawn_exclusivity (b : Board) (hwf : wfBoard b) :
    ((emptyPositions b = []) →
      ∀ pick four, addRandomTile b pick four = none) ∧
    (∀ r c, emptyPositions b = [(r, c)] →
      ∀ pick four,
        addRandomTile b pick four =
          some (setCell b r c (some (if four then 4 else 2))) ∧
        (cellAt (setCell b r c (some (if four then 4 else 2))) r c = some 2 ∨
         cellAt (setCell b r c (some (if four then 4 else 2))) r c = some 4) ∧
        ∀ r2 c2, ¬(r2 = r ∧ c2 = c) →
          cellAt (setCell b r c (some (if four then 4 else 2))) r2 c2 =
            cellAt b r2 c2) := by
  constructor
  · intro hemp pick four
    unfold addRandomTile
    rw [hemp]
    rfl
  · intro r c hone pick four
    obtain ⟨hmain, hrb, hclen⟩ :=
      singleton_empty_spawn b hwf r c hone pick four
    refine ⟨hmain, ?_, ?_⟩
    · rw [cellAt_setCell_self b r c _ hrb hclen]
      cases four
      · exact Or.inl rfl
      · exact Or.inr rfl
    · intro r2 c2 hne
      exact cellAt_setCell_other b r c r2 c2 _ hne

/-- C8 witness: spawning on the board with exactly one empty cell (row 3,
    column 2) fills that cell and leaves cell (0, 0) unchanged. -/
theorem c8_spawn_exclusivity_witness :
    addRandomTile oneEmptyBoard 5 true =
      some (setCell oneEmptyBoard 3 2 (some 4)) ∧
    cellAt (setCell oneEmptyBoard 3 2 (some 4)) 0 0 =
      cellAt oneEmptyBoard 0 0 :=
  ⟨((c8_spawn_exclusivity oneEmptyBoard (by decide)).2 3 2 (by decide)
      5 true).1,
   ((c8_spawn_exclusivity oneEmptyBoard (by decide)).2 3 2 (by decide)
      5 true).2.2 0 0 (by decide)⟩

/-- C9: whenever move reports changed = false, the returned board is
    cell-for-cell the input board, and reapplying the same direction again
    yields the identical board with changed = false. -/
theorem c9_noop_idempotent (b : Board) (hwf : wfBoard b) (dir : String)
    (h : (move b dir).changed = false) :
    (move b dir).newBoard = b ∧
    (move (move b dir).newBoard dir).changed = false ∧
    (move (move b dir).newBoard dir).newBoard = (move b dir).newBoard := by
  have hmain : (move b dir).newBoard = b := by
    by_cases h1 : dir = "left"
    · subst h1
      rw [move_left_eq] at h ⊢
      exact moveLeft_unchanged b h
    by_cases h2 : dir = "right"
    · subst h2
      rw [move_right_eq] at h ⊢
      exact moveRight_unchanged b h
    by_cases h3 : dir = "up"
    · subst h3
      rw [move_up_eq, moveUp_eq] at h ⊢
      show transposeBoard (moveLeft (transposeBoard b)).newBoard = b
      rw [moveLeft_unchanged _ h]
      exact transpose_transpose b hwf
    by_cases h4 : dir = "down"
    · subst h4
      rw [move_down_eq, moveDown_eq] at h ⊢
      show transposeBoard (moveRight (transposeBoard b)).newBoard = b
      rw [moveRight_unchanged _ h]
      exact transpose_transpose b hwf
    · rw [move_default b dir h1 h2 h3 h4]
  refine ⟨hmain, ?_, ?_⟩
  · rw [hmain]
    exact h
  · rw [hmain]
    exact hmain

/-- C9 witness: the no-op idempotence at the already fully compacted and
    mergeless lostBoard, moving left. -/
theorem c9_noop_idempotent_witness :
    (move lostBoard "left").newBoard = lostBoard ∧
    (move (move lostBoard "left").newBoard "left").changed = false ∧
    (move (move lostBoard "left").newBoard "left").newBoard =
      (move lostBoard "left").newBoard :=
  c9_noop_idempotent lostBoard (by decide) "left" (by decide)

/-- C10: on a well-formed 4 x 4 board, a move from the closed enumeration
    that reports changed = true always leaves at least one empty cell, so
    the subsequent spawn always succeeds (addRandomTile never returns the
    "no placement" result) and the fallback in handleMove that adopts the
    unspawned board is unreachable after a changed move. -/
theorem c10_changed_leaves_empty (b : Board) (hwf : wfBoard b) (dir : String)
    (hdir : dir = "left" ∨ dir = "right" ∨ dir = "up" ∨ dir = "down")
    (hch : (move b dir).changed = true) :
    emptyPositions (move b dir).newBoard ≠ [] ∧
    ∀ pick four,
      (addRandomTile (move b dir).newBoard pick four).isSome = true := by
  have h1 := move_changed_empty b hwf dir hdir hch
  exact ⟨h1, fun pick four => addRandomTile_isSome _ pick four h1⟩

/-- C10 witness: a concrete changed move (example board, left) leaves an
    empty cell and its spawn succeeds. -/
theorem c10_changed_leaves_empty_witness :
    emptyPositions (move exampleBoard "left").newBoard ≠ [] ∧
    (addRandomTile (move exampleBoard "left").newBoard 0 false).isSome =
      true :=
  ⟨(c10_changed_leaves_empty exampleBoard (by decide) "left" (Or.inl rfl)
      (by decide)).1,
   (c10_changed_leaves_empty exampleBoard (by decide) "left" (Or.inl rfl)
      (by decide)).2 0 false⟩
